import Mathlib

/-!
Shallow embedding of the meeting-relevance pipeline (`main.py`,
`tools/fireflies.py`, `tools/connect.py`) of the zunou-goals repository,
together with proofs settling the specification claims.

Database rows, API responses and LLM answers are modelled as explicit data;
external collaborators (the Fireflies API, the LLM) are modelled as oracle
functions whose results may be an `Except.error`, standing for a raised
exception at the corresponding library call.
-/

set_option autoImplicit false

namespace ZunouGoals

/-- A goal row as selected by `fetch_goals_and_integrations`:
`SELECT name, pulse_id, organization_id, description FROM goals WHERE type = 'objectives'`. -/
structure Goal where
  name : String
  pulse_id : String
  organization_id : String
  description : String
deriving DecidableEq, Repr

/-- The projection of a goal kept by `get_relations`: `{"name": ..., "description": ...}`. -/
structure GoalND where
  name : String
  description : String
deriving DecidableEq, Repr

/-- An integration row as selected by `fetch_goals_and_integrations`:
`SELECT pulse_id, user_id, api_key FROM integrations WHERE type = 'fireflies'`. -/
structure Integration where
  pulse_id : String
  user_id : String
  api_key : String
deriving DecidableEq, Repr

/-- A relation dict as built by `get_relations`. -/
structure Relation where
  user_id : String
  pulse_id : String
  api_key : String
  goals : List GoalND
deriving DecidableEq, Repr

/-- `{"name": goal["name"], "description": goal["description"]}` in `get_relations`. -/
def projGoal (g : Goal) : GoalND := ⟨g.name, g.description⟩

/-- One iteration of the grouping loop in `get_relations`: `goals_dict` is a Python
dict, i.e. an insertion-ordered association list from `pulse_id` to the list of
projected goals; a goal is appended to its key's list, a fresh key is appended
at the end. -/
def addGoal : List (String × List GoalND) → Goal → List (String × List GoalND)
  | [], g => [(g.pulse_id, [projGoal g])]
  | (k, l) :: rest, g =>
      if k = g.pulse_id then (k, l ++ [projGoal g]) :: rest
      else (k, l) :: addGoal rest g

/-- The `goals_dict` built by the first loop of `get_relations`. -/
def build_goals_dict (goals : List Goal) : List (String × List GoalND) :=
  goals.foldl addGoal []

/-- `goals_dict.get(pulse_id, [])`. -/
def lookupGoals (d : List (String × List GoalND)) (pid : String) : List GoalND :=
  match d.find? (fun e => e.1 = pid) with
  | some e => e.2
  | none => []

/-- `get_relations(goals, integrations)` from `main.py`: group goals by `pulse_id`,
then emit one relation per integration carrying its `user_id`, `pulse_id`,
`api_key` and the goal list found for its `pulse_id` (default `[]`). -/
def get_relations (goals : List Goal) (integrations : List Integration) : List Relation :=
  let goals_dict := build_goals_dict goals
  integrations.map (fun it =>
    { user_id := it.user_id
      pulse_id := it.pulse_id
      api_key := it.api_key
      goals := lookupGoals goals_dict it.pulse_id })

/-- Spec-side characterisation of a relation's goal list: the subsequence of the
goal list with the given `pulse_id`, in encounter order, projected to
name/description. -/
def specGoalsFor (goals : List Goal) (pid : String) : List GoalND :=
  (goals.filter (fun g => g.pulse_id = pid)).map projGoal

theorem lookupGoals_addGoal (d : List (String × List GoalND)) (g : Goal) (pid : String) :
    lookupGoals (addGoal d g) pid =
      lookupGoals d pid ++ (if g.pulse_id = pid then [projGoal g] else []) := by
  induction d with
  | nil =>
      by_cases h : g.pulse_id = pid <;>
        simp [addGoal, lookupGoals, List.find?, h]
  | cons e rest ih =>
      obtain ⟨k, l⟩ := e
      by_cases hk : k = g.pulse_id
      · subst hk
        by_cases h : g.pulse_id = pid
        · subst h
          simp [addGoal, lookupGoals, List.find?]
        · simp [addGoal, lookupGoals, List.find?, h]
      · by_cases hkp : k = pid
        · subst hkp
          have hk' : g.pulse_id ≠ k := fun h => hk h.symm
          simp [addGoal, lookupGoals, List.find?, hk, hk']
        · simp only [addGoal, if_neg hk]
          simp only [lookupGoals, List.find?, decide_eq_true_eq] at ih ⊢
          simp [hkp, ih, lookupGoals]

theorem lookupGoals_foldl (goals : List Goal) (d : List (String × List GoalND)) (pid : String) :
    lookupGoals (goals.foldl addGoal d) pid = lookupGoals d pid ++ specGoalsFor goals pid := by
  induction goals generalizing d with
  | nil => simp [specGoalsFor]
  | cons g gs ih =>
      by_cases h : g.pulse_id = pid <;>
        simp [List.foldl_cons, ih, lookupGoals_addGoal, specGoalsFor, h, List.filter_cons]

theorem lookupGoals_build (goals : List Goal) (pid : String) :
    lookupGoals (build_goals_dict goals) pid = specGoalsFor goals pid := by
  have h := lookupGoals_foldl goals [] pid
  simpa [build_goals_dict, lookupGoals] using h

/-- Sample values used by witness theorems. -/
def sampleGoal : Goal := ⟨"Grow revenue", "org1", "o1", "Increase Q3 revenue"⟩

def sampleIntegration : Integration := ⟨"org2", "u1", "K1"⟩

/-- C1: `get_relations(G, I)` returns exactly `len(I)` relations; the relation for
each integration carries that integration's `user_id`, `pulse_id` and `api_key`,
its goals list is the subsequence of `G` (encounter order, projected to
name/description) whose `pulse_id` matches, and is empty when no goal matches. -/
theorem get_relations_spec (G : List Goal) (I : List Integration) :
    (get_relations G I).length = I.length ∧
    get_relations G I = I.map (fun it =>
      { user_id := it.user_id, pulse_id := it.pulse_id, api_key := it.api_key
        goals := specGoalsFor G it.pulse_id }) ∧
    (∀ it ∈ I, (∀ g ∈ G, g.pulse_id ≠ it.pulse_id) → specGoalsFor G it.pulse_id = []) := by
  refine ⟨by simp [get_relations], ?_, ?_⟩
  · simp only [get_relations]
    exact List.map_congr_left (fun it _ => by rw [lookupGoals_build])
  · intro it _ hnone
    simp only [specGoalsFor, List.map_eq_nil_iff, List.filter_eq_nil_iff]
    intro g hg
    simpa using hnone g hg

/-- Witness for `get_relations_spec` at concrete inputs: one goal, one integration
whose `pulse_id` matches no goal, so its relation's goal list is empty. -/
theorem get_relations_spec_witness :
    sampleIntegration ∈ [sampleIntegration] ∧
    (∀ g ∈ [sampleGoal], g.pulse_id ≠ sampleIntegration.pulse_id) ∧
    specGoalsFor [sampleGoal] sampleIntegration.pulse_id = [] :=
  ⟨by decide, by decide,
    (get_relations_spec [sampleGoal] [sampleIntegration]).2.2 sampleIntegration
      (by decide) (by decide)⟩

/-- A meeting dict as appended by `fetch_fireflies_meetings`. -/
structure Meeting where
  transcript_id : String
  title : String
  user_id : String
  user_name : String
  pulse_id : String
  short_summary : String
  goals : List GoalND
deriving DecidableEq, Repr

/-- The LLM collaborator behind `chain.invoke` in `check_meeting_goal_relation`:
given the meeting's goals and short summary it returns the response string, or
`Except.error` standing for a raised exception (transport failure etc.). -/
abbrev LLM : Type := List GoalND → String → Except String String

/-- Python's prefix test on character lists, used to model the `in` operator. -/
def startsWithChars : List Char → List Char → Bool
  | [], _ => true
  | _ :: _, [] => false
  | c :: cs, d :: ds => c = d && startsWithChars cs ds

/-- Python's substring operator `needle in hay` on character lists. -/
def containsSub (needle : List Char) : List Char → Bool
  | [] => needle.isEmpty
  | d :: ds => startsWithChars needle (d :: ds) || containsSub needle ds

/-- Python's `s.lower()`, as the lower-cased character sequence of `s`. -/
def lower (s : String) : List Char :=
  s.data.map Char.toLower

/-- `check_meeting_goal_relation(meeting, llm)` from `main.py`: invoke the LLM on
the meeting's goals and short summary; return `'yes' in response.lower()`; any
exception is caught and yields `False`. -/
def check_meeting_goal_relation (llm : LLM) (m : Meeting) : Bool :=
  match llm m.goals m.short_summary with
  | .error _ => false
  | .ok response => containsSub "yes".data (lower response)

/-- From the spec's words: the case-insensitive response contains "yes"
(as `List.IsInfix` of the lower-cased character sequence). -/
def ContainsTokenYes (r : String) : Prop :=
  "yes".data <:+: lower r

theorem startsWithChars_iff (n h : List Char) :
    startsWithChars n h = true ↔ n <+: h := by
  induction n generalizing h with
  | nil => simp [startsWithChars]
  | cons c cs ih =>
      cases h with
      | nil => simp [startsWithChars]
      | cons d ds =>
          simp [startsWithChars, ih, List.cons_prefix_cons]

theorem containsSub_iff (n h : List Char) :
    containsSub n h = true ↔ n <:+: h := by
  induction h with
  | nil => simp [containsSub, List.isEmpty_iff]
  | cons d ds ih =>
      simp [containsSub, startsWithChars_iff, ih, List.infix_cons_iff]

def sampleMeeting : Meeting :=
  ⟨"t1", "Revenue sync", "u1", "Alice", "org1", "Discussed Q3 revenue growth",
    [⟨"Grow revenue", "Increase Q3 revenue"⟩]⟩

/-- The LLM oracle answering every invocation with the fixed response `r`. -/
def constLLM (r : String) : LLM := fun _ _ => .ok r

/-- C2: the judgment is `true` iff the case-insensitive LLM response contains
"yes", and `false` for any other content; in particular "Yes",
"yes, because...", "YES!" yield `true` and "No", "", "maybe" yield `false`. -/
theorem check_parse_rule :
    (∀ (llm : LLM) (m : Meeting) (r : String), llm m.goals m.short_summary = .ok r →
      (check_meeting_goal_relation llm m = true ↔ ContainsTokenYes r)) ∧
    (∀ m : Meeting, check_meeting_goal_relation (constLLM "Yes") m = true) ∧
    (∀ m : Meeting, check_meeting_goal_relation (constLLM "yes, because...") m = true) ∧
    (∀ m : Meeting, check_meeting_goal_relation (constLLM "YES!") m = true) ∧
    (∀ m : Meeting, check_meeting_goal_relation (constLLM "No") m = false) ∧
    (∀ m : Meeting, check_meeting_goal_relation (constLLM "") m = false) ∧
    (∀ m : Meeting, check_meeting_goal_relation (constLLM "maybe") m = false) := by
  refine ⟨?_, fun _ => rfl, fun _ => rfl, fun _ => rfl, fun _ => rfl, fun _ => rfl,
    fun _ => rfl⟩
  intro llm m r h
  rw [ContainsTokenYes, ← containsSub_iff]
  simp [check_meeting_goal_relation, h]

/-- Witness for `check_parse_rule` at a concrete LLM and meeting. -/
theorem check_parse_rule_witness :
    (constLLM "Yes" sampleMeeting.goals sampleMeeting.short_summary = Except.ok "Yes") ∧
    (check_meeting_goal_relation (constLLM "Yes") sampleMeeting = true ↔
      ContainsTokenYes "Yes") :=
  ⟨rfl, check_parse_rule.1 (constLLM "Yes") sampleMeeting "Yes" rfl⟩

/-- C7: `check_meeting_goal_relation` never raises; an exception from the LLM call
is caught and resolves the judgment to `false`. In this embedding totality is
by type (`Bool`-valued); this theorem states the fail-closed branch. -/
theorem check_fail_closed (llm : LLM) (m : Meeting) (e : String)
    (h : llm m.goals m.short_summary = .error e) :
    check_meeting_goal_relation llm m = false := by
  simp [check_meeting_goal_relation, h]

/-- The LLM oracle raising on every invocation. -/
def raisingLLM (e : String) : LLM := fun _ _ => .error e

/-- Witness for `check_fail_closed`: a raising LLM yields judgment `false`. -/
theorem check_fail_closed_witness :
    check_meeting_goal_relation (raisingLLM "transport failure") sampleMeeting = false :=
  check_fail_closed (raisingLLM "transport failure") sampleMeeting
    "transport failure" rfl

/-- A row of the `meetings` table:
`(transcript_id, title, user_id, pulse_id, summary, status)` with a unique
constraint on `transcript_id`. -/
structure MeetingRow where
  transcript_id : String
  title : String
  user_id : String
  pulse_id : String
  summary : String
  status : String
deriving DecidableEq, Repr

/-- The row inserted by `store_meeting` for a new `transcript_id`. -/
def rowOfMeeting (m : Meeting) (status : String) : MeetingRow :=
  ⟨m.transcript_id, m.title, m.user_id, m.pulse_id, m.short_summary, status⟩

/-- The `DO UPDATE SET status = %s, summary = %s` action on a conflicting row. -/
def overwriteStatusSummary (m : Meeting) (status : String) (r : MeetingRow) : MeetingRow :=
  if r.transcript_id = m.transcript_id then
    { r with status := status, summary := m.short_summary }
  else r

/-- The SQL statement of `store_meeting`:
`INSERT INTO meetings (transcript_id, title, user_id, pulse_id, summary, status)
VALUES (...) ON CONFLICT (transcript_id) DO UPDATE SET status = %s, summary = %s`,
on a table modelled as a row list. -/
def applyUpsert (rows : List MeetingRow) (m : Meeting) (status : String) : List MeetingRow :=
  if rows.any (fun r => r.transcript_id = m.transcript_id) then
    rows.map (overwriteStatusSummary m status)
  else
    rows ++ [rowOfMeeting m status]

/-- What a caller of `store_meeting` can observe: a committed write, a caught
exception (logged, transaction rolled back, `None` returned), or a re-raised
exception. The source never produces `raised`: its `except` clause catches
every exception. -/
inductive StoreOutcome where
  | committed
  | rolledBackLogged
  | raised
deriving DecidableEq, Repr

/-- `store_meeting(meeting, status, db_connection)` from `main.py`. `fails`
models whether the execute/commit raises; on failure the exception is caught,
the error logged and the transaction rolled back, and the function returns
normally (it neither re-raises nor retries). -/
def store_meeting (m : Meeting) (status : String) (rows : List MeetingRow) (fails : Bool) :
    List MeetingRow × StoreOutcome :=
  if fails then (rows, .rolledBackLogged)
  else (applyUpsert rows m status, .committed)

/-- The stored rows keyed by a given `transcript_id`. -/
def rowsFor (rows : List MeetingRow) (tid : String) : List MeetingRow :=
  rows.filter (fun r => r.transcript_id = tid)

theorem overwrite_transcript_id (m : Meeting) (st : String) (r : MeetingRow) :
    (overwriteStatusSummary m st r).transcript_id = r.transcript_id := by
  unfold overwriteStatusSummary
  split <;> simp_all

theorem rowsFor_applyUpsert_new (rows : List MeetingRow) (m : Meeting) (st : String)
    (h : rowsFor rows m.transcript_id = []) :
    rowsFor (applyUpsert rows m st) m.transcript_id = [rowOfMeeting m st] := by
  have hmem : ∀ r ∈ rows, ¬(r.transcript_id = m.transcript_id) := by
    simpa [rowsFor, List.filter_eq_nil_iff] using h
  have hany : rows.any (fun r => r.transcript_id = m.transcript_id) = false := by
    simp only [List.any_eq_false, decide_eq_true_eq]
    exact hmem
  simp only [applyUpsert, hany, Bool.false_eq_true, if_neg]
  simp [rowsFor, List.filter_append, List.filter_eq_nil_iff, rowOfMeeting]
  exact fun r hr => by simpa using hmem r hr

theorem rowsFor_applyUpsert_existing (rows : List MeetingRow) (m : Meeting) (st : String)
    (r : MeetingRow) (h : rowsFor rows m.transcript_id = [r]) :
    rowsFor (applyUpsert rows m st) m.transcript_id =
      [{ r with status := st, summary := m.short_summary }] := by
  have hrmem : r ∈ rowsFor rows m.transcript_id := by simp [h]
  have hrtid : r.transcript_id = m.transcript_id := by
    have := List.of_mem_filter hrmem
    simpa using this
  have hany : rows.any (fun x => x.transcript_id = m.transcript_id) = true := by
    have : r ∈ rows := List.mem_of_mem_filter hrmem
    simp only [List.any_eq_true, decide_eq_true_eq]
    exact ⟨r, this, hrtid⟩
  have hfilter :
      rowsFor (rows.map (overwriteStatusSummary m st)) m.transcript_id
        = (rowsFor rows m.transcript_id).map (overwriteStatusSummary m st) := by
    simp only [rowsFor, List.filter_map]
    congr 1
    apply List.filter_congr
    intro x _
    simp [Function.comp, overwrite_transcript_id]
  simp only [applyUpsert, hany, if_pos]
  rw [hfilter, h]
  simp [overwriteStatusSummary, hrtid]

theorem length_rowsFor_le_one_cases (rows : List MeetingRow) (tid : String)
    (h : (rowsFor rows tid).length ≤ 1) :
    rowsFor rows tid = [] ∨ ∃ r, rowsFor rows tid = [r] := by
  match hval : rowsFor rows tid with
  | [] => exact Or.inl rfl
  | [r] => exact Or.inr ⟨r, rfl⟩
  | r₁ :: r₂ :: rest => rw [hval] at h; simp at h

/-- C4: upserting `(m, st1)` then `(m, st2)` leaves exactly one row for
`m.transcript_id`, equal to the row left by upserting `(m, st2)` alone; the
hypothesis is the table's unique constraint on `transcript_id` (at most one
row for the key). -/
theorem upsert_idempotent (rows : List MeetingRow) (m : Meeting) (st1 st2 : String)
    (hwf : (rowsFor rows m.transcript_id).length ≤ 1) :
    rowsFor (applyUpsert (applyUpsert rows m st1) m st2) m.transcript_id
      = rowsFor (applyUpsert rows m st2) m.transcript_id ∧
    (rowsFor (applyUpsert (applyUpsert rows m st1) m st2) m.transcript_id).length = 1 := by
  rcases length_rowsFor_le_one_cases rows m.transcript_id hwf with hnil | ⟨r, hone⟩
  · have h1 := rowsFor_applyUpsert_new rows m st1 hnil
    have h2 := rowsFor_applyUpsert_existing (applyUpsert rows m st1) m st2 _ h1
    have h3 := rowsFor_applyUpsert_new rows m st2 hnil
    rw [h2, h3]
    simp [rowOfMeeting]
  · have h1 := rowsFor_applyUpsert_existing rows m st1 r hone
    have h2 := rowsFor_applyUpsert_existing (applyUpsert rows m st1) m st2 _ h1
    have h3 := rowsFor_applyUpsert_existing rows m st2 r hone
    rw [h2, h3]
    simp

/-- Witness for `upsert_idempotent`: upserting the sample meeting twice into an
empty table, first PENDING then COMPLETED, equals one COMPLETED upsert. -/
theorem upsert_idempotent_witness :
    (rowsFor ([] : List MeetingRow) sampleMeeting.transcript_id).length ≤ 1 ∧
    (rowsFor (applyUpsert (applyUpsert [] sampleMeeting "PENDING") sampleMeeting "COMPLETED")
        sampleMeeting.transcript_id
      = rowsFor (applyUpsert [] sampleMeeting "COMPLETED") sampleMeeting.transcript_id ∧
    (rowsFor (applyUpsert (applyUpsert [] sampleMeeting "PENDING") sampleMeeting "COMPLETED")
        sampleMeeting.transcript_id).length = 1) :=
  ⟨by decide, upsert_idempotent [] sampleMeeting "PENDING" "COMPLETED" (by decide)⟩

/-- Counterexample to C3 as stated: on a failing upsert, `store_meeting`
catches the exception and returns normally after logging and rolling back —
the caller never observes the failure (`raised` is never produced), so the
failure is not reported to the caller. -/
theorem store_failure_swallowed :
    (store_meeting sampleMeeting "PENDING" [] true).2 = .rolledBackLogged ∧
    ¬((store_meeting sampleMeeting "PENDING" [] true).2 = .raised) := by
  decide

/-- C3 (amended): every failure of the meeting upsert rolls back the attempted
write, leaving the stored rows in their previous durable state; the failure is
logged and swallowed — the caller observes a normal return, not an exception —
and the write is not retried. -/
theorem store_failure_rolls_back (m : Meeting) (st : String) (rows : List MeetingRow)
    (fails : Bool) (h : fails = true) :
    (store_meeting m st rows fails).1 = rows ∧
    (store_meeting m st rows fails).2 = .rolledBackLogged ∧
    (store_meeting m st rows fails).2 ≠ .raised := by
  subst h
  simp [store_meeting]

/-- Witness for `store_failure_rolls_back` on a nonempty prior state. -/
theorem store_failure_rolls_back_witness :
    (store_meeting sampleMeeting "COMPLETED" [rowOfMeeting sampleMeeting "PENDING"] true).1
        = [rowOfMeeting sampleMeeting "PENDING"] ∧
    (store_meeting sampleMeeting "COMPLETED" [rowOfMeeting sampleMeeting "PENDING"] true).2
        = .rolledBackLogged ∧
    (store_meeting sampleMeeting "COMPLETED" [rowOfMeeting sampleMeeting "PENDING"] true).2
        ≠ .raised :=
  store_failure_rolls_back sampleMeeting "COMPLETED"
    [rowOfMeeting sampleMeeting "PENDING"] true rfl

/-- C9: when the upsert hits an existing row for the same `transcript_id`, every
row keeps its position, `transcript_id`, `title`, `user_id` and `pulse_id`; the
matching row gets the new `status` and `summary`, and non-matching rows are
untouched. -/
theorem upsert_preserves_frame (rows : List MeetingRow) (m : Meeting) (st : String)
    (hexists : ∃ r ∈ rows, r.transcript_id = m.transcript_id) :
    (applyUpsert rows m st).length = rows.length ∧
    ∀ i : Nat, i < rows.length →
      ∃ r r', rows[i]? = some r ∧ (applyUpsert rows m st)[i]? = some r' ∧
        r'.transcript_id = r.transcript_id ∧ r'.title = r.title ∧
        r'.user_id = r.user_id ∧ r'.pulse_id = r.pulse_id ∧
        (r.transcript_id = m.transcript_id →
          r'.status = st ∧ r'.summary = m.short_summary) ∧
        (r.transcript_id ≠ m.transcript_id → r' = r) := by
  have hany : rows.any (fun r => r.transcript_id = m.transcript_id) = true := by
    simp only [List.any_eq_true, decide_eq_true_eq]
    exact hexists
  have hmap : applyUpsert rows m st = rows.map (overwriteStatusSummary m st) := by
    simp [applyUpsert, hany]
  constructor
  · rw [hmap, List.length_map]
  · intro i hi
    have hsome : rows[i]? = some rows[i] := List.getElem?_eq_getElem hi
    refine ⟨rows[i], overwriteStatusSummary m st rows[i], hsome, ?_, ?_, ?_, ?_, ?_, ?_, ?_⟩
    · rw [hmap, List.getElem?_map, hsome]
      rfl
    · exact overwrite_transcript_id m st _
    · unfold overwriteStatusSummary
      split <;> rfl
    · unfold overwriteStatusSummary
      split <;> rfl
    · unfold overwriteStatusSummary
      split <;> rfl
    · intro hm
      unfold overwriteStatusSummary
      rw [if_pos hm]
      exact ⟨rfl, rfl⟩
    · intro hm
      unfold overwriteStatusSummary
      rw [if_neg hm]

/-- A pre-existing row for the sample meeting's `transcript_id` with different
title, user and pulse fields, used to witness the frame property. -/
def sampleRow : MeetingRow :=
  ⟨"t1", "old title", "old_user", "old_pulse", "old summary", "PENDING"⟩

/-- Witness for `upsert_preserves_frame` at a concrete table. -/
theorem upsert_preserves_frame_witness :
    (∃ r ∈ [sampleRow], r.transcript_id = sampleMeeting.transcript_id) ∧
    (applyUpsert [sampleRow] sampleMeeting "COMPLETED").length = [sampleRow].length :=
  ⟨by decide,
    (upsert_preserves_frame [sampleRow] sampleMeeting "COMPLETED" (by decide)).1⟩

/-- A user as returned by the users query `{ users { name user_id } }`. -/
structure FFUser where
  name : String
  user_id : String
deriving DecidableEq, Repr

/-- A transcript as returned by the transcripts query (`{ title id }`). -/
structure Transcript where
  title : String
  id : String
deriving DecidableEq, Repr

/-- The Fireflies API collaborator behind `request_fireflies`, one oracle per
query shape; `Except.error` models a raised exception for that request
(non-200 status, transport failure). The Python falsy-dict guards collapse a
missing `data`/`users`/`transcripts` field and an empty list into the same
skip, so a `.ok` empty list covers both; the summary oracle returns `none`
when the `data`/`transcript`/`summary` chain is missing or falsy, and `some s`
for a present summary with `short_summary` `s`. -/
structure FirefliesAPI where
  users : String → Except String (List FFUser)
  transcripts : String → String → Except String (List Transcript)
  summary : String → String → Except String (Option String)

/-- A request issued to `request_fireflies`, by query shape and arguments. -/
inductive FFRequest where
  | usersQ (api_key : String)
  | transcriptsQ (api_key : String) (user_id : String)
  | summaryQ (api_key : String) (transcript_id : String)
deriving DecidableEq, Repr

/-- The inner transcript loop of `fetch_fireflies_meetings` for one relation:
one summary query per transcript; a missing summary skips that transcript
(`continue`), an exception aborts the whole relation while keeping meetings
already appended. Returns the appended meetings and the issued requests. -/
def collectSummaries (api : FirefliesAPI) (r : Relation) (u : FFUser) :
    List Transcript → List Meeting × List FFRequest
  | [] => ([], [])
  | t :: ts =>
    match api.summary r.api_key t.id with
    | .error _ => ([], [.summaryQ r.api_key t.id])
    | .ok none =>
        let rest := collectSummaries api r u ts
        (rest.1, .summaryQ r.api_key t.id :: rest.2)
    | .ok (some s) =>
        let rest := collectSummaries api r u ts
        (⟨t.id, t.title, u.user_id, u.name, r.pulse_id, s, r.goals⟩ :: rest.1,
          .summaryQ r.api_key t.id :: rest.2)

/-- The body of the relation loop of `fetch_fireflies_meetings`, with its
request log: the users query (only `users[0]` is taken), the transcripts query
for that user, then the summary loop; any exception is caught (`continue`),
leaving what was already appended. -/
def fetchRelation (api : FirefliesAPI) (r : Relation) : List Meeting × List FFRequest :=
  match api.users r.api_key with
  | .error _ => ([], [.usersQ r.api_key])
  | .ok [] => ([], [.usersQ r.api_key])
  | .ok (u :: _) =>
    match api.transcripts r.api_key u.user_id with
    | .error _ => ([], [.usersQ r.api_key, .transcriptsQ r.api_key u.user_id])
    | .ok [] => ([], [.usersQ r.api_key, .transcriptsQ r.api_key u.user_id])
    | .ok ts =>
        let inner := collectSummaries api r u ts
        (inner.1, .usersQ r.api_key :: .transcriptsQ r.api_key u.user_id :: inner.2)

/-- `fetch_fireflies_meetings(relations)` from `main.py`: the meetings appended
across all relations, in order. -/
def fetch_fireflies_meetings (api : FirefliesAPI) (relations : List Relation) : List Meeting :=
  relations.flatMap (fun r => (fetchRelation api r).1)

theorem mem_collectSummaries (api : FirefliesAPI) (r : Relation) (u : FFUser) :
    ∀ (ts : List Transcript) (m : Meeting), m ∈ (collectSummaries api r u ts).1 →
      ∃ t ∈ ts, m.transcript_id = t.id ∧ m.title = t.title ∧
        api.summary r.api_key t.id = .ok (some m.short_summary) ∧
        m.user_id = u.user_id ∧ m.user_name = u.name ∧
        m.pulse_id = r.pulse_id ∧ m.goals = r.goals := by
  intro ts
  induction ts with
  | nil => intro m hm; simp [collectSummaries] at hm
  | cons t ts ih =>
      intro m hm
      cases hs : api.summary r.api_key t.id with
      | error e => simp [collectSummaries, hs] at hm
      | ok v =>
          cases v with
          | none =>
              simp only [collectSummaries, hs] at hm
              obtain ⟨t', ht', rest⟩ := ih m hm
              exact ⟨t', List.mem_cons_of_mem t ht', rest⟩
          | some s =>
              simp only [collectSummaries, hs, List.mem_cons] at hm
              rcases hm with hm | hm
              · subst hm
                exact ⟨t, List.mem_cons_self t ts, rfl, rfl, hs, rfl, rfl, rfl, rfl⟩
              · obtain ⟨t', ht', rest⟩ := ih m hm
                exact ⟨t', List.mem_cons_of_mem t ht', rest⟩

theorem collectSummaries_complete (api : FirefliesAPI) (r : Relation) (u : FFUser) :
    ∀ (ts : List Transcript) (t : Transcript) (s : String), t ∈ ts →
      (∀ t' ∈ ts, ∃ v, api.summary r.api_key t'.id = .ok v) →
      api.summary r.api_key t.id = .ok (some s) →
      ∃ m ∈ (collectSummaries api r u ts).1, m.transcript_id = t.id := by
  intro ts
  induction ts with
  | nil => intro t s hmem; simp at hmem
  | cons t₀ ts ih =>
      intro t s hmem hok hsum
      rcases List.mem_cons.mp hmem with heq | htail
      · subst heq
        refine ⟨⟨t.id, t.title, u.user_id, u.name, r.pulse_id, s, r.goals⟩, ?_, rfl⟩
        simp [collectSummaries, hsum]
      · obtain ⟨v, hv⟩ := hok t₀ (List.mem_cons_self t₀ ts)
        obtain ⟨m, hm, hmid⟩ := ih t s htail
          (fun t' ht' => hok t' (List.mem_cons_of_mem t₀ ht')) hsum
        cases v with
        | none => exact ⟨m, by simp [collectSummaries, hv, hm], hmid⟩
        | some s₀ => exact ⟨m, by simp [collectSummaries, hv, List.mem_cons, hm], hmid⟩

theorem collectSummaries_requests (api : FirefliesAPI) (r : Relation) (u : FFUser) :
    ∀ (ts : List Transcript) (q : FFRequest), q ∈ (collectSummaries api r u ts).2 →
      ∃ tid, q = .summaryQ r.api_key tid := by
  intro ts
  induction ts with
  | nil => intro q hq; simp [collectSummaries] at hq
  | cons t ts ih =>
      intro q hq
      cases hs : api.summary r.api_key t.id with
      | error e =>
          simp only [collectSummaries, hs, List.mem_singleton] at hq
          exact ⟨t.id, hq⟩
      | ok v =>
          cases v with
          | none =>
              simp only [collectSummaries, hs, List.mem_cons] at hq
              rcases hq with hq | hq
              · exact ⟨t.id, hq⟩
              · exact ih q hq
          | some s =>
              simp only [collectSummaries, hs, List.mem_cons] at hq
              rcases hq with hq | hq
              · exact ⟨t.id, hq⟩
              · exact ih q hq

/-- One observable call of `main`'s per-meeting loop: `storeCall t s` is
`store_meeting` invoked for transcript `t` with status `s`, `classifyQ t` is
the classifier invocation, `notifySummary t` is `send_notification_summary`. -/
inductive Event where
  | storeCall (transcript_id : String) (status : String)
  | classifyQ (transcript_id : String)
  | notifySummary (transcript_id : String)
deriving DecidableEq, Repr

/-- The transcript id an event concerns. -/
def Event.tid : Event → String
  | .storeCall t _ => t
  | .classifyQ t => t
  | .notifySummary t => t

/-- The calls `main` makes for one meeting: `store_meeting(meeting, "PENDING")`,
`check_meeting_goal_relation`, `store_meeting(meeting, "COMPLETED")`, then
`send_notification_summary` only when the judgment is related. -/
def processMeeting (llm : LLM) (m : Meeting) : List Event :=
  [.storeCall m.transcript_id "PENDING", .classifyQ m.transcript_id,
    .storeCall m.transcript_id "COMPLETED"] ++
    (if check_meeting_goal_relation llm m then [.notifySummary m.transcript_id] else [])

/-- The call sequence of `main`'s meeting loop over a fetched meeting list. -/
def mainTrace (llm : LLM) (meetings : List Meeting) : List Event :=
  meetings.flatMap (processMeeting llm)

theorem tid_processMeeting (llm : LLM) (m : Meeting) (e : Event)
    (hme : e ∈ processMeeting llm m) : e.tid = m.transcript_id := by
  by_cases hc : check_meeting_goal_relation llm m = true
  · simp only [processMeeting, if_pos hc, List.mem_append, List.mem_cons,
      List.not_mem_nil, or_false] at hme
    rcases hme with (h | h | h) | h <;> subst h <;> rfl
  · simp only [processMeeting, if_neg hc, List.append_nil, List.mem_cons,
      List.not_mem_nil, or_false] at hme
    rcases hme with h | h | h <;> subst h <;> rfl

theorem mainTrace_tid (llm : LLM) (meetings : List Meeting) (e : Event)
    (he : e ∈ mainTrace llm meetings) : ∃ m ∈ meetings, e.tid = m.transcript_id := by
  obtain ⟨m, hm, hme⟩ := List.mem_flatMap.mp he
  exact ⟨m, hm, tid_processMeeting llm m e hme⟩

theorem storeCompleted_mem_mainTrace (llm : LLM) (meetings : List Meeting) (m : Meeting)
    (hm : m ∈ meetings) :
    Event.storeCall m.transcript_id "COMPLETED" ∈ mainTrace llm meetings := by
  refine List.mem_flatMap.mpr ⟨m, hm, ?_⟩
  by_cases hc : check_meeting_goal_relation llm m = true <;> simp [processMeeting, hc]

/-- C6: for every processed meeting the loop stores PENDING first, classifies
second, stores COMPLETED third, and invokes the notifier (fourth) exactly when
the relevance judgment is true. -/
theorem main_event_order (llm : LLM) (m : Meeting) :
    (processMeeting llm m)[0]? = some (.storeCall m.transcript_id "PENDING") ∧
    (processMeeting llm m)[1]? = some (.classifyQ m.transcript_id) ∧
    (processMeeting llm m)[2]? = some (.storeCall m.transcript_id "COMPLETED") ∧
    ((processMeeting llm m)[3]? =
      if check_meeting_goal_relation llm m then some (.notifySummary m.transcript_id)
      else none) ∧
    (Event.notifySummary m.transcript_id ∈ processMeeting llm m ↔
      check_meeting_goal_relation llm m = true) := by
  by_cases hc : check_meeting_goal_relation llm m = true <;>
    simp [processMeeting, hc]

/-- C5: a transcript returned by the source without a summary is skipped before
any persistence (no stored PENDING or COMPLETED, no classification, no
notification), while a transcript whose summary is present reaches the
COMPLETED store for every LLM behavior, including a raising one. The
hypotheses say the transcript was returned for this relation and that no
summary request of the relation raised. -/
theorem summary_gates_pipeline (api : FirefliesAPI) (llm : LLM) (r : Relation)
    (u : FFUser) (us : List FFUser) (ts : List Transcript) (t : Transcript)
    (hu : api.users r.api_key = .ok (u :: us))
    (ht : api.transcripts r.api_key u.user_id = .ok ts)
    (hmem : t ∈ ts)
    (hok : ∀ t' ∈ ts, ∃ v, api.summary r.api_key t'.id = .ok v) :
    (api.summary r.api_key t.id = .ok none →
      ∀ e ∈ mainTrace llm (fetchRelation api r).1, e.tid ≠ t.id) ∧
    (∀ s, api.summary r.api_key t.id = .ok (some s) →
      Event.storeCall t.id "COMPLETED" ∈ mainTrace llm (fetchRelation api r).1) := by
  have hts : ts ≠ [] := fun h => by subst h; simp at hmem
  have hfr : (fetchRelation api r).1 = (collectSummaries api r u ts).1 := by
    cases ts with
    | nil => exact absurd rfl hts
    | cons t₀ ts₀ => simp [fetchRelation, hu, ht]
  constructor
  · intro hnone e he
    rw [hfr] at he
    obtain ⟨m, hm, hetid⟩ := mainTrace_tid llm _ e he
    obtain ⟨t', _, hmid, _, hsum, _⟩ := mem_collectSummaries api r u ts m hm
    intro hcontra
    have : t'.id = t.id := by rw [← hmid, ← hetid, hcontra]
    rw [this, hnone] at hsum
    exact Except.noConfusion hsum (fun h => Option.noConfusion h)
  · intro s hsum
    obtain ⟨m, hm, hmid⟩ := collectSummaries_complete api r u ts t s hmem hok hsum
    have := storeCompleted_mem_mainTrace llm _ m (hfr ▸ hm)
    rwa [hmid] at this

/-- A two-user oracle for the witnesses: one credential (`K1`) answers all three
queries, a second credential (`K2`) raises on its users query. -/
def sampleAPI : FirefliesAPI where
  users := fun key =>
    if key = "K1" then .ok [⟨"Alice", "u1"⟩, ⟨"Bob", "u2"⟩]
    else .error "Failed to request Fireflies, status code: 401"
  transcripts := fun key uid =>
    if key = "K1" ∧ uid = "u1" then .ok [⟨"Revenue sync", "t1"⟩, ⟨"Standup", "t2"⟩]
    else .ok []
  summary := fun key tid =>
    if key = "K1" ∧ tid = "t1" then .ok (some "Discussed Q3 revenue growth")
    else .ok none

/-- The relation the sample oracle serves. -/
def sampleRelation : Relation :=
  ⟨"u1", "org1", "K1", [⟨"Grow revenue", "Increase Q3 revenue"⟩]⟩

/-- A relation whose credential raises on the users query. -/
def failingRelation : Relation := ⟨"u9", "org9", "K2", []⟩

theorem sampleAPI_summary_ok (key tid : String) :
    ∃ v, sampleAPI.summary key tid = .ok v := by
  by_cases h : key = "K1" ∧ tid = "t1"
  · exact ⟨some "Discussed Q3 revenue growth", by simp [sampleAPI, h]⟩
  · exact ⟨none, by simp [sampleAPI, h]⟩

/-- Witness for `summary_gates_pipeline`: under the sample oracle, transcript
`t2` (summary absent) yields no event at all, and transcript `t1` (summary
present) reaches the COMPLETED store even though the LLM raises. -/
theorem summary_gates_pipeline_witness :
    ((⟨"Standup", "t2"⟩ : Transcript) ∈ [(⟨"Revenue sync", "t1"⟩ : Transcript), ⟨"Standup", "t2"⟩]) ∧
    (∀ e ∈ mainTrace (raisingLLM "down") (fetchRelation sampleAPI sampleRelation).1,
      e.tid ≠ "t2") ∧
    Event.storeCall "t1" "COMPLETED" ∈
      mainTrace (raisingLLM "down") (fetchRelation sampleAPI sampleRelation).1 := by
  have h2 := summary_gates_pipeline sampleAPI (raisingLLM "down") sampleRelation
    ⟨"Alice", "u1"⟩ [⟨"Bob", "u2"⟩] [⟨"Revenue sync", "t1"⟩, ⟨"Standup", "t2"⟩]
    ⟨"Standup", "t2"⟩ rfl rfl (by decide)
    (fun t' _ => sampleAPI_summary_ok sampleRelation.api_key t'.id)
  have h1 := summary_gates_pipeline sampleAPI (raisingLLM "down") sampleRelation
    ⟨"Alice", "u1"⟩ [⟨"Bob", "u2"⟩] [⟨"Revenue sync", "t1"⟩, ⟨"Standup", "t2"⟩]
    ⟨"Revenue sync", "t1"⟩ rfl rfl (by decide)
    (fun t' _ => sampleAPI_summary_ok sampleRelation.api_key t'.id)
  exact ⟨by decide, h2.1 rfl, h1.2 "Discussed Q3 revenue growth" rfl⟩

/-- C8: a source failure for one credential is caught and does not abort the
other credentials: with relation `r`'s users query (or its first user's
transcripts query) raising, the run still returns exactly the meetings of the
surrounding relations. -/
theorem source_error_isolated (api : FirefliesAPI) (pre post : List Relation) (r : Relation)
    (herr : (∃ e, api.users r.api_key = .error e) ∨
      (∃ u us e, api.users r.api_key = .ok (u :: us) ∧
        api.transcripts r.api_key u.user_id = .error e)) :
    fetch_fireflies_meetings api (pre ++ r :: post)
      = fetch_fireflies_meetings api pre ++ fetch_fireflies_meetings api post := by
  have hr : (fetchRelation api r).1 = [] := by
    rcases herr with ⟨e, he⟩ | ⟨u, us, e, hu, ht⟩
    · simp [fetchRelation, he]
    · simp [fetchRelation, hu, ht]
  simp [fetch_fireflies_meetings, List.flatMap_append, List.flatMap_cons, hr]

/-- Witness for `source_error_isolated`: the failing credential `K2` between two
copies of the working relation drops nothing from the others. -/
theorem source_error_isolated_witness :
    (∃ e, sampleAPI.users failingRelation.api_key = .error e) ∧
    fetch_fireflies_meetings sampleAPI ([sampleRelation] ++ failingRelation :: [sampleRelation])
      = fetch_fireflies_meetings sampleAPI [sampleRelation] ++
        fetch_fireflies_meetings sampleAPI [sampleRelation] :=
  ⟨⟨"Failed to request Fireflies, status code: 401", rfl⟩,
    source_error_isolated sampleAPI [sampleRelation] [sampleRelation] failingRelation
      (Or.inl ⟨"Failed to request Fireflies, status code: 401", rfl⟩)⟩

/-- C10: only `users[0]` is used for a credential: every meeting emitted for the
relation carries the first user's `user_id`, the only transcripts request
issued is for the first user, and no transcripts request is issued for any
other returned user. -/
theorem only_first_user_used (api : FirefliesAPI) (r : Relation) (u : FFUser)
    (us : List FFUser) (hu : api.users r.api_key = .ok (u :: us)) :
    (∀ m ∈ (fetchRelation api r).1, m.user_id = u.user_id) ∧
    (∀ k uid, FFRequest.transcriptsQ k uid ∈ (fetchRelation api r).2 →
      k = r.api_key ∧ uid = u.user_id) ∧
    (∀ u' ∈ us, u'.user_id ≠ u.user_id →
      FFRequest.transcriptsQ r.api_key u'.user_id ∉ (fetchRelation api r).2) := by
  have hreq : ∀ k uid, FFRequest.transcriptsQ k uid ∈ (fetchRelation api r).2 →
      k = r.api_key ∧ uid = u.user_id := by
    intro k uid hq
    cases ht : api.transcripts r.api_key u.user_id with
    | error e =>
        simp only [fetchRelation, hu, ht, List.mem_cons, List.mem_singleton] at hq
        rcases hq with h | h | h
        · exact absurd h (by simp)
        · obtain ⟨h1, h2⟩ := FFRequest.transcriptsQ.inj h
          exact ⟨h1, h2⟩
        · simp at h
    | ok ts =>
        cases ts with
        | nil =>
            simp only [fetchRelation, hu, ht, List.mem_cons, List.mem_singleton] at hq
            rcases hq with h | h | h
            · exact absurd h (by simp)
            · obtain ⟨h1, h2⟩ := FFRequest.transcriptsQ.inj h
              exact ⟨h1, h2⟩
            · simp at h
        | cons t₀ ts₀ =>
            simp only [fetchRelation, hu, ht, List.mem_cons] at hq
            rcases hq with h | h | h
            · exact absurd h (by simp)
            · obtain ⟨h1, h2⟩ := FFRequest.transcriptsQ.inj h
              exact ⟨h1, h2⟩
            · obtain ⟨tid, htid⟩ := collectSummaries_requests api r u (t₀ :: ts₀) _ h
              exact absurd htid (by simp)
  refine ⟨?_, hreq, ?_⟩
  · intro m hm
    cases ht : api.transcripts r.api_key u.user_id with
    | error e => simp [fetchRelation, hu, ht] at hm
    | ok ts =>
        cases ts with
        | nil => simp [fetchRelation, hu, ht] at hm
        | cons t₀ ts₀ =>
            simp only [fetchRelation, hu, ht] at hm
            obtain ⟨t', _, _, _, _, huid, _⟩ :=
              mem_collectSummaries api r u (t₀ :: ts₀) m hm
            exact huid
  · intro u' _ hne hq
    exact hne (hreq r.api_key u'.user_id hq).2

/-- Witness for `only_first_user_used`: under the sample oracle the only
transcripts request is for user `u1`, and user `u2` is never queried. -/
theorem only_first_user_used_witness :
    (sampleAPI.users sampleRelation.api_key = .ok [⟨"Alice", "u1"⟩, ⟨"Bob", "u2"⟩]) ∧
    (∀ m ∈ (fetchRelation sampleAPI sampleRelation).1, m.user_id = "u1") ∧
    FFRequest.transcriptsQ "K1" "u2" ∉ (fetchRelation sampleAPI sampleRelation).2 := by
  have h := only_first_user_used sampleAPI sampleRelation ⟨"Alice", "u1"⟩
    [⟨"Bob", "u2"⟩] rfl
  exact ⟨rfl, h.1, h.2.2 ⟨"Bob", "u2"⟩ (by decide) (by decide)⟩

end ZunouGoals
